import Mathlib

/-!
Verification of the terminal-agent core: the output truncator
(`src/utils/truncate.ts`), the edit/write tool handlers
(`src/tools/handlers.ts`), and the agent loops (the Gemini agent with its
confirmation gate and truncation, and the OpenAI agent with its JSON
argument parsing).

JavaScript strings are modelled as lists of characters (`Str`); JS string
primitives (`slice`, `indexOf`, `substring`) are embedded with their
ECMAScript semantics, including the edge cases (`slice(-0)` returns the
whole string; `indexOf` of the empty string returns the clamped start
position).  Effectful collaborators (tool handler bodies, the JSON parser,
the backend) are parameters of the loop definitions; the dispatch logic
itself is translated from the source.
-/

/-- A JavaScript string, as a list of its characters (code units). -/
abbrev Str := List Char

/-- The single-quote character, written by code point to keep string
literals quote-free. -/
def squote : Char := Char.ofNat 39

/-! ### Output truncator (src/utils/truncate.ts) -/

/-- MAX_RESULT_LENGTH from truncate.ts. -/
def MAX_RESULT_LENGTH : Nat := 30000

/-- JS `text.slice(-n)`.  ECMAScript normalises `-0` to `0`, so for
`n = 0` the whole string is returned; for `0 < n` it is the last
`min n text.length` characters. -/
def jsSliceFromEnd (text : Str) (n : Nat) : Str :=
  if n = 0 then text else text.drop (text.length - n)

/-- The head piece of the truncation marker, `"\n\n... [truncated: "`. -/
def truncationMarkerPre : Str := "\n\n... [truncated: ".data

/-- The tail piece of the truncation marker, `" characters omitted] ...\n\n"`. -/
def truncationMarkerPost : Str := " characters omitted] ...\n\n".data

/-- The full marker inserted between head and tail of a truncated result. -/
def truncationMarker (omitted : Nat) : Str :=
  truncationMarkerPre ++ (Nat.repr omitted).data ++ truncationMarkerPost

/-- Function `truncateToolResult` from truncate.ts.  The source computes
`Math.floor(maxLen * (2/3))` in binary64; for every `maxLen < 2^52` that
equals `⌊2·maxLen/3⌋` (the product `maxLen · fl(2/3)` is within half an
ulp of `2·maxLen/3`), so the head length is embedded as `2 * maxLen / 3`
in natural-number arithmetic.  The default `maxLen` in the source is
`MAX_RESULT_LENGTH`; callers here pass it explicitly. -/
def truncateToolResult (text : Str) (maxLen : Nat) : Str :=
  if text.length ≤ maxLen then text
  else
    let headLen := 2 * maxLen / 3
    let tailLen := maxLen - headLen
    text.take headLen
      ++ truncationMarker (text.length - headLen - tailLen)
      ++ jsSliceFromEnd text tailLen

/-- A 30001-character string, one character over the default budget. -/
def bigA : Str := List.replicate 30001 'a'

/-! ### JS `indexOf` and the edit handler (src/tools/handlers.ts) -/

/-- Whether `pat` occurs in `content` at position `k` (as a literal
substring with its end inside the string). -/
def matchAt (content pat : Str) (k : Nat) : Bool :=
  decide (k + pat.length ≤ content.length) && ((content.drop k).take pat.length == pat)

/-- Linear scan for the least position at or after `k` at which `pat`
occurs, stopping past the end of `content`; the fuel argument (chosen
large enough by `indexOfSearch`) only forces structural termination. -/
def indexOfSearchFuel (content pat : Str) : Nat → Nat → Option Nat
  | 0, _ => none
  | fuel + 1, k =>
    if content.length < k then none
    else if matchAt content pat k then some k
    else indexOfSearchFuel content pat fuel (k + 1)

/-- Linear scan for the least `j ≥ k` at which `pat` occurs. -/
def indexOfSearch (content pat : Str) (k : Nat) : Option Nat :=
  indexOfSearchFuel content pat (content.length + 1 - k) k

/-- JS `content.indexOf(pat, start)` (ECMAScript: the start position is
clamped to the string length, then the least matching position at or
after it is returned; `none` models `-1`). -/
def jsIndexOfFrom (content pat : Str) (start : Nat) : Option Nat :=
  indexOfSearch content pat (min start content.length)

/-- JS `content.indexOf(pat)`. -/
def jsIndexOf (content pat : Str) : Option Nat :=
  jsIndexOfFrom content pat 0

/-- Number of positions at which `pat` occurs in `content` (occurrences
may overlap). -/
def countOccurrences (content pat : Str) : Nat :=
  ((List.range (content.length + 1)).filter (fun k => matchAt content pat k)).length

/-- Result of reading a file, as the edit handler's try/catch observes it. -/
inductive ReadResult where
  | ok (content : Str)
  | enoent
  | eacces
deriving DecidableEq

/-- Message `Error: File '<path>' not found`. -/
def editFileNotFoundMsg (path : Str) : Str :=
  "Error: File ".data ++ [squote] ++ path ++ [squote] ++ " not found".data

/-- Message `Error: Could not find the specified text in '<path>'`. -/
def editTextNotFoundMsg (path : Str) : Str :=
  "Error: Could not find the specified text in ".data ++ [squote] ++ path ++ [squote]

/-- Message `Error: Found multiple matches for the specified text in
'<path>'. Provide more context to make the match unique.` -/
def editAmbiguousMsg (path : Str) : Str :=
  "Error: Found multiple matches for the specified text in ".data ++ [squote] ++ path
    ++ [squote] ++ ". Provide more context to make the match unique.".data

/-- Message `Error: Permission denied for '<path>'`. -/
def editPermissionMsg (path : Str) : Str :=
  "Error: Permission denied for ".data ++ [squote] ++ path ++ [squote]

/-- Message `Successfully edited <path>`. -/
def editSuccessMsg (path : Str) : Str :=
  "Successfully edited ".data ++ path

/-- Handler `editFileHandler` from handlers.ts, on an already-resolved path.  The
read of the file is passed in as a `ReadResult`; the returned pair is the
handler's result string together with the content written back (`none`
when the handler does not write). -/
def editFileHandler (read : ReadResult) (path oldText newText : Str) : Str × Option Str :=
  match read with
  | .enoent => (editFileNotFoundMsg path, none)
  | .eacces => (editPermissionMsg path, none)
  | .ok content =>
    match jsIndexOf content oldText with
    | none => (editTextNotFoundMsg path, none)
    | some matchIndex =>
      match jsIndexOfFrom content oldText (matchIndex + 1) with
      | some _ => (editAmbiguousMsg path, none)
      | none =>
        (editSuccessMsg path,
         some (content.take matchIndex ++ newText ++ content.drop (matchIndex + oldText.length)))

/-! ### Write handler (src/tools/handlers.ts) -/

/-- An already-resolved absolute path, as its list of segments. -/
abbrev PathSegs := List Str

/-- A model of the filesystem as the handlers use it: the set of existing
directories and a path-to-content map for files. -/
structure FileSystem where
  dirs : List PathSegs
  files : List (PathSegs × Str)
deriving DecidableEq

/-- Add a directory if it is not already present (`mkdir` on an existing
directory with `recursive: true` is not an error). -/
def insertDir (ds : List PathSegs) (d : PathSegs) : List PathSegs :=
  if d ∈ ds then ds else ds ++ [d]

/-- All ancestors of a directory path, shortest first, the path itself
last. -/
def ancestors (d : PathSegs) : List PathSegs :=
  (List.range d.length).map fun i => d.take (i + 1)

/-- Model of `mkdir(dir, { recursive: true })`: create the directory and every
missing ancestor; existing directories are left alone. -/
def mkdirRecursive (fs : FileSystem) (d : PathSegs) : FileSystem :=
  ⟨(ancestors d).foldl insertDir fs.dirs, fs.files⟩

/-- Create or overwrite the entry for `p`. -/
def setFile : List (PathSegs × Str) → PathSegs → Str → List (PathSegs × Str)
  | [], p, c => [(p, c)]
  | (q, d) :: rest, p, c =>
    if q = p then (p, c) :: rest else (q, d) :: setFile rest p c

/-- Look up a file's content. -/
def lookupIn : List (PathSegs × Str) → PathSegs → Option Str
  | [], _ => none
  | (q, d) :: rest, p => if q = p then some d else lookupIn rest p

/-- JS `path.dirname` on a segment path. -/
def dirnameSegs (p : PathSegs) : PathSegs := p.dropLast

/-- Render a segment path back to a string with `/` separators. -/
def renderPath (p : PathSegs) : Str := List.intercalate [Char.ofNat 47] p

/-- Message `Successfully wrote <n> bytes to <path>`.  The source reports
`content.length`, the number of string units of the content (which is the
byte count at this embedding's one-unit-per-character granularity). -/
def writeSuccessMsg (path : PathSegs) (n : Nat) : Str :=
  "Successfully wrote ".data ++ (Nat.repr n).data ++ " bytes to ".data ++ renderPath path

/-- Handler `writeFileHandler` from handlers.ts on its success path: make the
parent directories, then create-or-overwrite the file with the given
content, and report the number of units written. -/
def writeFileHandler (fs : FileSystem) (path : PathSegs) (content : Str) :
    FileSystem × Str :=
  let fs1 := mkdirRecursive fs (dirnameSegs path)
  (⟨fs1.dirs, setFile fs1.files path content⟩, writeSuccessMsg path content.length)

/-! ### The Gemini agent loop (the agent with the confirmation gate and
the output truncator; `Agent.sendMessage`) -/

/-- Structured tool-call arguments (`Record<string, string>`). -/
abbrev Args := List (Str × Str)

/-- A tool handler as the dispatch step sees it: structured input to
result text.  Handler bodies do I/O and are collaborators here. -/
abbrev Handler := Args → Str

/-- The registered confirmation callback `onConfirm`. -/
abbrev Approver := Str → Args → Bool

/-- A function call issued by the backend: name, correlation id,
structured arguments. -/
structure FunctionCall where
  name : Str
  id : Str
  args : Args
deriving DecidableEq

/-- The payload of a functionResponse part: `{ output: ... }` or
`{ error: ... }`. -/
inductive ResponsePayload where
  | output (s : Str)
  | error (s : Str)
deriving DecidableEq

/-- A functionResponse part: tool name, correlation id, payload. -/
structure FunctionResponse where
  name : Str
  id : Str
  payload : ResponsePayload
deriving DecidableEq

/-- A part of a conversation turn: text (with its `thought` flag), a
function call, or a function response. -/
inductive GPart where
  | text (s : Str) (thought : Bool)
  | call (fc : FunctionCall)
  | response (fr : FunctionResponse)
deriving DecidableEq

/-- One turn of the Conversation: a role and its parts. -/
structure Content where
  role : Str
  parts : List GPart
deriving DecidableEq

/-- Observer-callback invocations emitted by one `sendMessage` run. -/
inductive AgentEvent where
  | assistantText (t : Str)
  | toolUse (name : Str) (args : Args)
  | confirmAsked (name : Str) (args : Args)
  | toolResult (name : Str) (result : Str)
deriving DecidableEq

/-- Set `destructiveTools` from handlers.ts. -/
def destructiveTools : List Str :=
  ["write_file".data, "edit_file".data, "run_command".data]

/-- Result text `Tool execution denied by user.` -/
def deniedMsg : Str := "Tool execution denied by user.".data

/-- Message `Error: Unknown tool: '<name>'`. -/
def unknownToolMsg (name : Str) : Str :=
  "Error: Unknown tool: ".data ++ [squote] ++ name ++ [squote]

/-- Dispatch of one call after the confirmation gate: look up the
handler; an unknown name yields an error payload, otherwise the handler
runs, the tool-result callback fires, and the truncated result is stored. -/
def dispatchAfterGate (gth : Str → Option Handler) (fc : FunctionCall) :
    FunctionResponse × List AgentEvent :=
  match gth fc.name with
  | none => (⟨fc.name, fc.id, .error (unknownToolMsg fc.name)⟩, [])
  | some h =>
    let result := h fc.args
    (⟨fc.name, fc.id, .output (truncateToolResult result MAX_RESULT_LENGTH)⟩,
     [.toolResult fc.name result])

/-- Processing of one function call in the Gemini `sendMessage` loop:
the tool-use callback fires, then the confirmation gate runs for a
destructive tool when an approver is registered, then (if allowed) the
call is dispatched. -/
def processCall (gth : Str → Option Handler) (oc : Option Approver) (fc : FunctionCall) :
    FunctionResponse × List AgentEvent :=
  match oc with
  | some confirm =>
    if destructiveTools.contains fc.name then
      if confirm fc.name fc.args then
        let r := dispatchAfterGate gth fc
        (r.1, .toolUse fc.name fc.args :: .confirmAsked fc.name fc.args :: r.2)
      else
        (⟨fc.name, fc.id, .output deniedMsg⟩,
         [.toolUse fc.name fc.args, .confirmAsked fc.name fc.args])
    else
      let r := dispatchAfterGate gth fc
      (r.1, .toolUse fc.name fc.args :: r.2)
  | none =>
    let r := dispatchAfterGate gth fc
    (r.1, .toolUse fc.name fc.args :: r.2)

/-- The dispatch loop over one assistant turn's function calls: one
functionResponse part per call, in order. -/
def processCalls (gth : Str → Option Handler) (oc : Option Approver) :
    List FunctionCall → List FunctionResponse × List AgentEvent
  | [] => ([], [])
  | fc :: rest =>
    let r := processCall gth oc fc
    let rs := processCalls gth oc rest
    (r.1 :: rs.1, r.2 ++ rs.2)

/-- The function calls contained in a turn's parts, in order. -/
def extractCalls (parts : List GPart) : List FunctionCall :=
  parts.filterMap fun p => match p with | .call fc => some fc | _ => none

/-- Correlation ids of the function calls of a turn. -/
def callIds (c : Content) : List Str := (extractCalls c.parts).map FunctionCall.id

/-- Correlation ids of the function responses of a turn. -/
def respIds (c : Content) : List Str :=
  c.parts.filterMap fun p => match p with | .response fr => some fr.id | _ => none

/-- The model turn appended for a backend response (the parts verbatim). -/
def modelContent (parts : List GPart) : Content := ⟨"model".data, parts⟩

/-- The follow-up turn carrying the function responses of one round. -/
def toolTurn (rs : List FunctionResponse) : Content :=
  ⟨"user".data, rs.map GPart.response⟩

/-- The user turn appended for the user's input. -/
def userContent (input : Str) : Content := ⟨"user".data, [GPart.text input false]⟩

/-- The assistant-text callback for one response: the concatenation of
the non-thought text parts, emitted when nonempty. -/
def assistantTextEvents (parts : List GPart) : List AgentEvent :=
  let fullText :=
    (parts.filterMap fun p =>
      match p with
      | .text s thought => if thought then none else some s
      | _ => none).flatten
  if fullText.isEmpty then [] else [.assistantText fullText]

/-- The Gemini `sendMessage` loop, driven by a script of backend
responses (each entry the parts of one assistant turn; an exhausted
script models a failing backend invocation, which leaves the
conversation as already appended).  Returns the final conversation and
the emitted callback events. -/
def sendMessageLoop (gth : Str → Option Handler) (oc : Option Approver) :
    List (List GPart) → List Content → List Content × List AgentEvent
  | [], conv => (conv, [])
  | parts :: rest, conv =>
    let conv1 := conv ++ [modelContent parts]
    let evs := assistantTextEvents parts
    let calls := extractCalls parts
    if calls.isEmpty then (conv1, evs)
    else
      let pr := processCalls gth oc calls
      let res := sendMessageLoop gth oc rest (conv1 ++ [toolTurn pr.1])
      (res.1, evs ++ pr.2 ++ res.2)

/-- Method `Agent.sendMessage`: append the user turn, then run the loop. -/
def sendMessage (gth : Str → Option Handler) (oc : Option Approver)
    (script : List (List GPart)) (conv : List Content) (input : Str) :
    List Content × List AgentEvent :=
  sendMessageLoop gth oc script (conv ++ [userContent input])

/-- Whether the confirmation gate lets a call through: no approver, a
non-destructive tool, or an approving answer. -/
def gatePasses (oc : Option Approver) (fc : FunctionCall) : Bool :=
  match oc with
  | none => true
  | some f => !destructiveTools.contains fc.name || f fc.name fc.args

/-- The tool-result notification a call produces, if it is dispatched to
a handler at all. -/
def dispatchedResult (gth : Str → Option Handler) (oc : Option Approver)
    (fc : FunctionCall) : Option (Str × Str) :=
  match gth fc.name with
  | none => none
  | some h => if gatePasses oc fc then some (fc.name, h fc.args) else none

/-- Project a tool-result event. -/
def toolResultEvent? (e : AgentEvent) : Option (Str × Str) :=
  match e with
  | .toolResult n r => some (n, r)
  | _ => none

/-- Whether an event is a consultation of the approver. -/
def isConfirmEvent (e : AgentEvent) : Bool :=
  match e with
  | .confirmAsked _ _ => true
  | _ => false

/-- Whether an event is a handler invocation (the tool-result callback
fires immediately after every handler invocation, and only there). -/
def isToolResultEvent (e : AgentEvent) : Bool :=
  match e with
  | .toolResult _ _ => true
  | _ => false

/-- Pairing invariant on a conversation: every turn that contains
function calls is immediately followed by a turn whose function-response
correlation ids are exactly the call ids, in order. -/
def wellPaired : List Content → Bool
  | [] => true
  | c :: rest =>
    (match rest with
     | [] => (callIds c).isEmpty
     | d :: _ => (callIds c).isEmpty || respIds d == callIds c)
    && wellPaired rest

/-- Whether the last turn of a conversation contains no function calls. -/
def lastNoCalls : List Content → Bool
  | [] => true
  | [c] => (callIds c).isEmpty
  | _ :: c :: rest => lastNoCalls (c :: rest)

/-! ### The OpenAI agent loop (src/agent/openai-agent.ts) -/

/-- A `function_call` output item: name, correlation id, and the raw
JSON argument string (`none` models a null `arguments`). -/
structure OACall where
  name : Str
  call_id : Str
  arguments : Option Str
deriving DecidableEq

/-- A `function_call_output` input item. -/
structure OAOutput where
  call_id : Str
  output : Str
deriving DecidableEq

/-- Callback invocations of the OpenAI loop's dispatch step. -/
inductive OAEvent where
  | toolUse (name : Str) (args : Option Str)
  | toolResult (name : Str) (result : Str)
deriving DecidableEq

/-- The default argument string: the source parses `call.arguments ?? '{}'`. -/
def jsonEmptyObject : Str := "\x7b\x7d".data

/-- The model of the `SyntaxError` that `JSON.parse` throws on input that
is not valid JSON. -/
def jsonParseErrorMsg : Str := "Unexpected token in JSON".data

/-- The OpenAI `sendMessage` dispatch over one turn's tool calls.  The
JSON parser is a parameter (it models the platform's `JSON.parse`,
returning `none` where `JSON.parse` throws).  An unknown tool yields an
error-string output and the loop continues; a parse failure is an
uncaught exception — the whole round aborts with `Except.error` and the
collected outputs are discarded (the source has no try/catch around
`JSON.parse`).  Events already emitted before the throw are kept. -/
def oaProcessCalls (parse : Str → Option Args) (gth : Str → Option Handler) :
    List OACall → List OAEvent × Except Str (List OAOutput)
  | [] => ([], .ok [])
  | c :: rest =>
    match gth c.name with
    | none =>
      let r := oaProcessCalls parse gth rest
      (.toolUse c.name c.arguments :: r.1,
       r.2.map fun os => ⟨c.call_id, unknownToolMsg c.name⟩ :: os)
    | some h =>
      match parse (c.arguments.getD jsonEmptyObject) with
      | none => ([.toolUse c.name c.arguments], .error jsonParseErrorMsg)
      | some args =>
        let result := h args
        let r := oaProcessCalls parse gth rest
        (.toolUse c.name c.arguments :: .toolResult c.name result :: r.1,
         r.2.map fun os => ⟨c.call_id, result⟩ :: os)

/-- The output the OpenAI dispatch produces for one call when no parse
failure aborts the round. -/
def oaResponseFor (parse : Str → Option Args) (gth : Str → Option Handler)
    (c : OACall) : OAOutput :=
  match gth c.name with
  | none => ⟨c.call_id, unknownToolMsg c.name⟩
  | some h =>
    match parse (c.arguments.getD jsonEmptyObject) with
    | some args => ⟨c.call_id, h args⟩
    | none => ⟨c.call_id, []⟩

/-! ### Concrete instances used by counterexamples and witnesses -/

/-- A registry with a single tool `read_file` whose handler returns the
30001-character string `bigA`. -/
def gthBig : Str → Option Handler :=
  fun n => if n == "read_file".data then some (fun _ => bigA) else none

/-- A model of `JSON.parse` restricted to the concrete strings exercised
here: it parses `'\x7b\x7d'` (the empty object) and fails on everything
else — in particular on `'not json'` and `'oops'`, on which the real
`JSON.parse` throws a `SyntaxError`. -/
def parseStrict : Str → Option Args :=
  fun s => if s == jsonEmptyObject then some [] else none

/-- A call to `read_file` with null arguments. -/
def callNullArgs : OACall := ⟨"read_file".data, "call_1".data, none⟩

/-- A call to `read_file` whose arguments are not valid JSON. -/
def callBadArgs : OACall := ⟨"read_file".data, "call_2".data, some "not json".data⟩

/-- Another call with unparsable arguments, under a different id. -/
def callBadArgs2 : OACall := ⟨"read_file".data, "call_3".data, some "oops".data⟩

/-- Project a tool-result event of the OpenAI loop. -/
def oaToolResultEvent? (e : OAEvent) : Option (Str × Str) :=
  match e with
  | .toolResult n r => some (n, r)
  | _ => none

/-- The tool-result notification an OpenAI call produces when it is
dispatched to a handler: a registered name whose argument string
parses. -/
def oaDispatchedResult (parse : Str → Option Args) (gth : Str → Option Handler)
    (c : OACall) : Option (Str × Str) :=
  match gth c.name with
  | none => none
  | some h =>
    match parse (c.arguments.getD jsonEmptyObject) with
    | some args => some (c.name, h args)
    | none => none

/-- A call naming a tool with no registered handler. -/
def callUnknownTool : OACall := ⟨"fake_tool".data, "call_4".data, none⟩

/-- A call, later in the same round, whose arguments are not valid JSON. -/
def callBadArgsAfter : OACall := ⟨"read_file".data, "call_5".data, some "bad".data⟩

/-! ## Theorems -/

/-! ### Truncator lemmas -/

theorem headLen_lt (maxLen : Nat) (h : 1 ≤ maxLen) : 2 * maxLen / 3 < maxLen := by
  rw [Nat.div_lt_iff_lt_mul (by norm_num)]
  omega

theorem truncateToolResult_length (text : Str) (maxLen : Nat) (h1 : 1 ≤ maxLen)
    (h2 : maxLen < text.length) :
    (truncateToolResult text maxLen).length
      = maxLen + (truncationMarker (text.length - maxLen)).length := by
  have hq : 2 * maxLen / 3 < maxLen := headLen_lt maxLen h1
  have htail : ¬ (maxLen - 2 * maxLen / 3 = 0) := by omega
  have harg : text.length - 2 * maxLen / 3 - (maxLen - 2 * maxLen / 3)
      = text.length - maxLen := by omega
  simp only [truncateToolResult, jsSliceFromEnd]
  rw [if_neg (by omega), if_neg htail, harg]
  simp only [List.length_append, List.length_take, List.length_drop]
  have hmin : min (2 * maxLen / 3) text.length = 2 * maxLen / 3 :=
    min_eq_left (by omega)
  omega

theorem bigA_length : bigA.length = 30001 := by
  rw [bigA]
  exact List.length_replicate _ _

theorem truncate_bigA_length :
    (truncateToolResult bigA MAX_RESULT_LENGTH).length = 30045 := by
  have h := truncateToolResult_length bigA 30000 (by norm_num)
    (by rw [bigA_length]; norm_num)
  have hm : (truncationMarker (bigA.length - 30000)).length = 45 := by
    rw [bigA_length]
    decide
  rw [MAX_RESULT_LENGTH]
  omega

/-- C2 counterexample: truncation is not idempotent.  On a
30001-character string the first truncation emits 30045 characters (the
budget plus the marker), so a second truncation truncates again and the
results differ. -/
theorem truncate_not_idempotent_on_bigA :
    truncateToolResult (truncateToolResult bigA MAX_RESULT_LENGTH) MAX_RESULT_LENGTH
      ≠ truncateToolResult bigA MAX_RESULT_LENGTH := by
  intro h
  have hlen := congrArg List.length h
  have h1 : (truncateToolResult bigA MAX_RESULT_LENGTH).length = 30045 :=
    truncate_bigA_length
  have h2 := truncateToolResult_length (truncateToolResult bigA MAX_RESULT_LENGTH)
    30000 (by norm_num) (by rw [h1]; norm_num)
  have hm : (truncationMarker ((truncateToolResult bigA MAX_RESULT_LENGTH).length
      - 30000)).length = 46 := by
    rw [h1]
    decide
  simp only [MAX_RESULT_LENGTH] at hlen h1 h2 hm
  omega

/-- C2 (amended): `truncateToolResult` is the identity on every string
whose length is at most the configured maximum, and hence idempotent on
such strings.  (The unconditional idempotence of the original claim fails
on longer strings: truncation emits more than `maxLen` characters, so a
second application truncates again.) -/
theorem truncate_identity_of_le (text : Str) (maxLen : Nat)
    (h : text.length ≤ maxLen) :
    truncateToolResult text maxLen = text ∧
    truncateToolResult (truncateToolResult text maxLen) maxLen
      = truncateToolResult text maxLen := by
  have hid : truncateToolResult text maxLen = text := by
    simp [truncateToolResult, h]
  refine ⟨hid, ?_⟩
  rw [hid]
  exact hid

/-- Witness for the amended C2 theorem at a concrete short string. -/
theorem truncate_identity_of_le_witness :
    "hi".data.length ≤ 30000 ∧
      (truncateToolResult "hi".data 30000 = "hi".data ∧
       truncateToolResult (truncateToolResult "hi".data 30000) 30000
         = truncateToolResult "hi".data 30000) :=
  ⟨by decide, truncate_identity_of_le "hi".data 30000 (by decide)⟩

/-- C7 counterexample: at `maxLen = 0` (head budget 0, tail budget 0) the
claim predicts that the result is just the marker (zero head characters,
zero tail characters), but JS `slice(-0)` returns the whole string, so
the code appends the entire text after the marker. -/
theorem truncate_at_zero_budget_keeps_tail :
    truncateToolResult ['a'] 0 ≠ truncationMarker 1 := by
  decide

/-- C7 (amended): for `1 ≤ maxLen` and text longer than `maxLen`, the
result is the first `⌊2·maxLen/3⌋` characters, the marker naming exactly
the number of omitted characters, and the last `maxLen − ⌊2·maxLen/3⌋`
characters; hence for text built as `hd ++ filler ++ tl` the result
starts with a prefix of `hd` and ends with a suffix of `tl`. -/
theorem truncate_head_marker_tail (text : Str) (maxLen : Nat) (h1 : 1 ≤ maxLen)
    (h2 : maxLen < text.length) :
    truncateToolResult text maxLen
        = text.take (2 * maxLen / 3)
            ++ truncationMarker (text.length - maxLen)
            ++ text.drop (text.length - (maxLen - 2 * maxLen / 3))
      ∧ ∀ hd filler tl : Str, text = hd ++ filler ++ tl →
          (∃ rest, hd.take (2 * maxLen / 3) ++ rest = truncateToolResult text maxLen)
          ∧ ∃ rest,
              rest ++ tl.drop (tl.length - (maxLen - 2 * maxLen / 3))
                = truncateToolResult text maxLen := by
  have hq : 2 * maxLen / 3 < maxLen := headLen_lt maxLen h1
  have htail : ¬ (maxLen - 2 * maxLen / 3 = 0) := by omega
  have harg : text.length - 2 * maxLen / 3 - (maxLen - 2 * maxLen / 3)
      = text.length - maxLen := by omega
  have hmain : truncateToolResult text maxLen
      = text.take (2 * maxLen / 3)
          ++ truncationMarker (text.length - maxLen)
          ++ text.drop (text.length - (maxLen - 2 * maxLen / 3)) := by
    simp only [truncateToolResult, jsSliceFromEnd]
    rw [if_neg (by omega), if_neg htail, harg]
  refine ⟨hmain, ?_⟩
  intro hd filler tl ht
  have hlen : text.length = hd.length + filler.length + tl.length := by
    rw [ht]
    simp [List.length_append]
    omega
  constructor
  · have htake : text.take (2 * maxLen / 3)
        = hd.take (2 * maxLen / 3)
          ++ (filler.take (2 * maxLen / 3 - hd.length)
              ++ tl.take (2 * maxLen / 3 - (hd ++ filler).length)) := by
      rw [ht, List.take_append_eq_append_take, List.take_append_eq_append_take,
        List.append_assoc]
    refine ⟨(filler.take (2 * maxLen / 3 - hd.length)
        ++ tl.take (2 * maxLen / 3 - (hd ++ filler).length))
      ++ truncationMarker (text.length - maxLen)
      ++ text.drop (text.length - (maxLen - 2 * maxLen / 3)), ?_⟩
    rw [hmain, htake]
    simp [List.append_assoc]
  · have key : ∀ N : Nat, N = text.length - (maxLen - 2 * maxLen / 3) →
        text.drop N
          = (hd ++ filler).drop N
            ++ tl.drop (tl.length - (maxLen - 2 * maxLen / 3)) := by
      intro N hN
      have hidx : N - (hd ++ filler).length
          = tl.length - (maxLen - 2 * maxLen / 3) := by
        simp only [List.length_append]
        omega
      conv_lhs => rw [ht]
      rw [List.drop_append_eq_append_drop, hidx]
    have hdrop := key _ rfl
    refine ⟨text.take (2 * maxLen / 3)
      ++ truncationMarker (text.length - maxLen)
      ++ (hd ++ filler).drop (text.length - (maxLen - 2 * maxLen / 3)), ?_⟩
    rw [hmain, hdrop]
    simp [List.append_assoc]

/-- Witness for the amended C7 theorem at a concrete string and budget. -/
theorem truncate_head_marker_tail_witness :
    truncateToolResult "abcdefghij".data 3
      = "abcdefghij".data.take (2 * 3 / 3)
          ++ truncationMarker ("abcdefghij".data.length - 3)
          ++ "abcdefghij".data.drop ("abcdefghij".data.length - (3 - 2 * 3 / 3)) :=
  (truncate_head_marker_tail "abcdefghij".data 3 (by decide) (by decide)).1

/-! ### Edit-handler lemmas -/

theorem matchAt_le {content pat : Str} {k : Nat}
    (h : matchAt content pat k = true) : k ≤ content.length := by
  simp only [matchAt, Bool.and_eq_true, decide_eq_true_eq] at h
  omega

theorem indexOfSearchFuel_none_iff (content pat : Str) :
    ∀ fuel k, content.length + 1 - k ≤ fuel →
      (indexOfSearchFuel content pat fuel k = none ↔
        ∀ j, k ≤ j → matchAt content pat j = false) := by
  intro fuel
  induction fuel with
  | zero =>
    intro k hk
    have hgt : content.length < k := by omega
    simp only [indexOfSearchFuel]
    constructor
    · intro _ j hj
      by_contra hb
      have hb' : matchAt content pat j = true := by
        simpa using hb
      have := matchAt_le hb'
      omega
    · intro _
      trivial
  | succ n ih =>
    intro k hk
    simp only [indexOfSearchFuel]
    by_cases hgt : content.length < k
    · rw [if_pos hgt]
      constructor
      · intro _ j hj
        by_contra hb
        have hb' : matchAt content pat j = true := by
          simpa using hb
        have := matchAt_le hb'
        omega
      · intro _
        rfl
    · rw [if_neg hgt]
      by_cases hm : matchAt content pat k = true
      · rw [if_pos hm]
        constructor
        · intro h
          exact absurd h (by simp)
        · intro hall
          have := hall k le_rfl
          rw [hm] at this
          exact absurd this (by simp)
      · rw [if_neg hm]
        rw [ih (k + 1) (by omega)]
        have hmf : matchAt content pat k = false := by
          simpa using hm
        constructor
        · intro hall j hj
          rcases Nat.eq_or_lt_of_le hj with heq | hlt
          · rw [← heq]
            exact hmf
          · exact hall j (by omega)
        · intro hall j hj
          exact hall j (by omega)

theorem indexOfSearchFuel_some (content pat : Str) :
    ∀ fuel k i, indexOfSearchFuel content pat fuel k = some i →
      k ≤ i ∧ matchAt content pat i = true ∧
        ∀ j, k ≤ j → j < i → matchAt content pat j = false := by
  intro fuel
  induction fuel with
  | zero =>
    intro k i h
    exact absurd h (by simp [indexOfSearchFuel])
  | succ n ih =>
    intro k i h
    simp only [indexOfSearchFuel] at h
    by_cases hgt : content.length < k
    · rw [if_pos hgt] at h
      exact absurd h (by simp)
    · rw [if_neg hgt] at h
      by_cases hm : matchAt content pat k = true
      · rw [if_pos hm] at h
        have hik : i = k := by
          cases h
          rfl
        subst hik
        exact ⟨le_rfl, hm, fun j hj hji => absurd (lt_of_le_of_lt hj hji) (lt_irrefl _)⟩
      · rw [if_neg hm] at h
        obtain ⟨h1, h2, h3⟩ := ih (k + 1) i h
        have hmf : matchAt content pat k = false := by
          simpa using hm
        refine ⟨by omega, h2, ?_⟩
        intro j hj hji
        rcases Nat.eq_or_lt_of_le hj with heq | hlt
        · rw [← heq]
          exact hmf
        · exact h3 j (by omega) hji

theorem indexOfSearch_none_iff (content pat : Str) (k : Nat) :
    indexOfSearch content pat k = none ↔
      ∀ j, k ≤ j → matchAt content pat j = false :=
  indexOfSearchFuel_none_iff content pat (content.length + 1 - k) k le_rfl

theorem indexOfSearch_some {content pat : Str} {k i : Nat}
    (h : indexOfSearch content pat k = some i) :
    k ≤ i ∧ matchAt content pat i = true ∧
      ∀ j, k ≤ j → j < i → matchAt content pat j = false :=
  indexOfSearchFuel_some content pat _ k i h

theorem indexOfSearch_isSome_of_match {content pat : Str} {k j : Nat}
    (hm : matchAt content pat j = true) (hk : k ≤ j) :
    ∃ i, indexOfSearch content pat k = some i := by
  cases h : indexOfSearch content pat k with
  | none =>
    have := (indexOfSearch_none_iff content pat k).mp h j hk
    rw [hm] at this
    exact absurd this (by simp)
  | some i =>
    exact ⟨i, rfl⟩

theorem countOccurrences_eq_zero_iff (content pat : Str) :
    countOccurrences content pat = 0 ↔
      ∀ j, matchAt content pat j = false := by
  unfold countOccurrences
  rw [List.length_eq_zero, List.filter_eq_nil_iff]
  constructor
  · intro hall j
    by_cases hj : j < content.length + 1
    · have := hall j (List.mem_range.mpr hj)
      simpa using this
    · by_contra hb
      have hb' : matchAt content pat j = true := by
        simpa using hb
      have := matchAt_le hb'
      omega
  · intro hall j _
    rw [hall j]
    simp

theorem countOccurrences_unique {content pat : Str}
    (h : countOccurrences content pat = 1) {i j : Nat}
    (hi : matchAt content pat i = true) (hj : matchAt content pat j = true) :
    i = j := by
  unfold countOccurrences at h
  obtain ⟨a, ha⟩ := List.length_eq_one.mp h
  have hmem : ∀ m, matchAt content pat m = true →
      m ∈ (List.range (content.length + 1)).filter
        (fun k => matchAt content pat k) := by
    intro m hm
    exact List.mem_filter.mpr
      ⟨List.mem_range.mpr (by have := matchAt_le hm; omega), hm⟩
  have hia := hmem i hi
  have hja := hmem j hj
  rw [ha] at hia hja
  simp only [List.mem_singleton] at hia hja
  rw [hia, hja]

theorem countOccurrences_pos_exists (content pat : Str)
    (h : 1 ≤ countOccurrences content pat) :
    ∃ j, matchAt content pat j = true := by
  unfold countOccurrences at h
  have hne : (List.range (content.length + 1)).filter
      (fun k => matchAt content pat k) ≠ [] := by
    intro hnil
    rw [hnil] at h
    simp at h
  obtain ⟨a, ha⟩ := List.exists_mem_of_ne_nil _ hne
  exact ⟨a, (List.mem_filter.mp ha).2⟩

theorem length_le_one_of_nodup_const {l : List Nat} {i : Nat}
    (hnd : l.Nodup) (hall : ∀ x ∈ l, x = i) : l.length ≤ 1 := by
  cases l with
  | nil => simp
  | cons a t =>
    cases t with
    | nil => simp
    | cons b t' =>
      exfalso
      have ha := hall a (by simp)
      have hb := hall b (by simp)
      have hmem : a ∈ b :: t' := by
        rw [ha, ← hb]
        exact List.mem_cons_self _ _
      exact (List.nodup_cons.mp hnd).1 hmem

theorem countOccurrences_second (content pat : Str)
    (h : 2 ≤ countOccurrences content pat) {i : Nat}
    (hmin : ∀ j, j < i → matchAt content pat j = false) :
    ∃ j, i < j ∧ matchAt content pat j = true := by
  by_contra hno
  push_neg at hno
  unfold countOccurrences at h
  have hnd : ((List.range (content.length + 1)).filter
      (fun k => matchAt content pat k)).Nodup :=
    List.Nodup.filter _ (List.nodup_range _)
  have hall : ∀ x ∈ (List.range (content.length + 1)).filter
      (fun k => matchAt content pat k), x = i := by
    intro x hx
    have hmx : matchAt content pat x = true := (List.mem_filter.mp hx).2
    have h1 : ¬ x < i := by
      intro hlt
      have := hmin x hlt
      rw [hmx] at this
      exact absurd this (by simp)
    have h2 : ¬ i < x := by
      intro hlt
      exact (hno x hlt) hmx
    omega
  have := length_le_one_of_nodup_const hnd hall
  omega

theorem jsIndexOf_eq_indexOfSearch (content pat : Str) :
    jsIndexOf content pat = indexOfSearch content pat 0 := by
  unfold jsIndexOf jsIndexOfFrom
  rw [Nat.zero_min]

/-- C5 (amended): for a readable file and a nonempty `oldText`, the edit
handler rewrites a unique occurrence to the naive substring replacement
and reports success; zero occurrences yield the text-not-found error and
no write; two or more occurrences yield the ambiguity error and no
write; and the file-missing, text-missing and ambiguous error strings
are pairwise distinct.  (The original claim also covered the empty
`oldText`, where "occurs exactly once" can hold — in the empty file —
yet the code reports ambiguity; see the counterexample.) -/
theorem editFileHandler_spec (content old new path : Str) (hne : old ≠ []) :
    (countOccurrences content old = 1 →
      ∀ i, matchAt content old i = true →
        editFileHandler (.ok content) path old new =
          (editSuccessMsg path,
           some (content.take i ++ new ++ content.drop (i + old.length))))
    ∧ (countOccurrences content old = 0 →
        editFileHandler (.ok content) path old new = (editTextNotFoundMsg path, none))
    ∧ (2 ≤ countOccurrences content old →
        editFileHandler (.ok content) path old new = (editAmbiguousMsg path, none))
    ∧ editFileHandler .enoent path old new = (editFileNotFoundMsg path, none)
    ∧ editFileNotFoundMsg path ≠ editTextNotFoundMsg path
    ∧ editFileNotFoundMsg path ≠ editAmbiguousMsg path
    ∧ editTextNotFoundMsg path ≠ editAmbiguousMsg path := by
  have holdpos : 0 < old.length := List.length_pos.mpr hne
  have lenFile : ∀ p : Str, (editFileNotFoundMsg p).length = 24 + p.length := by
    intro p
    simp only [editFileNotFoundMsg, List.length_append, List.length_singleton,
      List.length_cons, List.length_nil]
    omega
  have lenText : ∀ p : Str, (editTextNotFoundMsg p).length = 46 + p.length := by
    intro p
    simp only [editTextNotFoundMsg, List.length_append, List.length_singleton,
      List.length_cons, List.length_nil]
    omega
  have lenAmb : ∀ p : Str, (editAmbiguousMsg p).length = 106 + p.length := by
    intro p
    simp only [editAmbiguousMsg, List.length_append, List.length_singleton,
      List.length_cons, List.length_nil]
    omega
  refine ⟨?_, ?_, ?_, rfl, ?_, ?_, ?_⟩
  · -- exactly one occurrence
    intro hc i hi
    obtain ⟨i', hsome⟩ := indexOfSearch_isSome_of_match hi (Nat.zero_le i)
    obtain ⟨-, hmi', -⟩ := indexOfSearch_some hsome
    have hii : i' = i := countOccurrences_unique hc hmi' hi
    subst hii
    have e1 : jsIndexOf content old = some i' := by
      rw [jsIndexOf_eq_indexOfSearch]
      exact hsome
    have hilen : i' < content.length := by
      have := matchAt_le hi
      simp only [matchAt, Bool.and_eq_true, decide_eq_true_eq] at hi
      omega
    have e2 : jsIndexOfFrom content old (i' + 1) = none := by
      unfold jsIndexOfFrom
      rw [indexOfSearch_none_iff]
      intro j hj
      by_cases hmj : matchAt content old j = true
      · have hji : j = i' := countOccurrences_unique hc hmj hi
        subst hji
        have : min (j + 1) content.length = j + 1 := min_eq_left (by omega)
        omega
      · simpa using hmj
    simp only [editFileHandler, e1, e2]
  · -- zero occurrences
    intro hc
    have hz := (countOccurrences_eq_zero_iff content old).mp hc
    have e1 : jsIndexOf content old = none := by
      rw [jsIndexOf_eq_indexOfSearch, indexOfSearch_none_iff]
      intro j _
      exact hz j
    simp only [editFileHandler, e1]
  · -- two or more occurrences
    intro hc
    obtain ⟨j0, hj0⟩ := countOccurrences_pos_exists content old (by omega)
    obtain ⟨i, hsome⟩ := indexOfSearch_isSome_of_match hj0 (Nat.zero_le _)
    obtain ⟨-, hmi, hmin⟩ := indexOfSearch_some hsome
    obtain ⟨j, hji, hmj⟩ :=
      countOccurrences_second content old hc (fun j hj => hmin j (Nat.zero_le _) hj)
    have e1 : jsIndexOf content old = some i := by
      rw [jsIndexOf_eq_indexOfSearch]
      exact hsome
    have hstart : min (i + 1) content.length ≤ j :=
      le_trans (Nat.min_le_left (i + 1) content.length) (by omega)
    obtain ⟨i2, hsome2⟩ := indexOfSearch_isSome_of_match hmj hstart
    have e2 : jsIndexOfFrom content old (i + 1) = some i2 := hsome2
    simp only [editFileHandler, e1, e2]
  · intro hEq
    have hl := congrArg List.length hEq
    rw [lenFile, lenText] at hl
    omega
  · intro hEq
    have hl := congrArg List.length hEq
    rw [lenFile, lenAmb] at hl
    omega
  · intro hEq
    have hl := congrArg List.length hEq
    rw [lenText, lenAmb] at hl
    omega

/-- Witness for the amended C5 theorem: a unique occurrence is replaced,
on concrete inputs. -/
theorem editFileHandler_spec_witness :
    editFileHandler (.ok "aba".data) "p".data "b".data "X".data
      = (editSuccessMsg "p".data,
         some ("aba".data.take 1 ++ "X".data ++ "aba".data.drop (1 + "b".data.length))) :=
  (editFileHandler_spec "aba".data "b".data "X".data "p".data (by decide)).1
    (by decide) 1 (by decide)

/-- C5 counterexample: with `oldText = ""` and an empty file, the empty
string occurs exactly once (at position 0), but the handler reports the
ambiguity error instead of performing the replacement. -/
theorem editFileHandler_empty_empty_not_success :
    countOccurrences [] [] = 1 ∧
      editFileHandler (.ok []) "p".data [] "X".data ≠
        (editSuccessMsg "p".data, some ("X".data : Str)) := by
  constructor
  · decide
  · decide

/-- C10: an empty `oldText` always takes the ambiguity branch — the
first `indexOf` returns 0, the second search (from position 1, clamped
to the length) again finds the empty string — so the handler reports the
multiple-matches error and never writes. -/
theorem editFileHandler_empty_oldText (content path new : Str) :
    editFileHandler (.ok content) path [] new = (editAmbiguousMsg path, none) := by
  have hm0 : matchAt content [] 0 = true := by
    simp [matchAt]
  obtain ⟨i, hsome⟩ := indexOfSearch_isSome_of_match hm0 le_rfl
  obtain ⟨-, -, hmin⟩ := indexOfSearch_some hsome
  have hi0 : i = 0 := by
    by_contra hne
    have := hmin 0 le_rfl (by omega)
    rw [hm0] at this
    exact absurd this (by simp)
  subst hi0
  have e1 : jsIndexOf content [] = some 0 := by
    rw [jsIndexOf_eq_indexOfSearch]
    exact hsome
  have hm1 : matchAt content [] (min 1 content.length) = true := by
    simp [matchAt, Nat.min_le_right]
  obtain ⟨i2, hsome2⟩ := indexOfSearch_isSome_of_match hm1 le_rfl
  have e2 : jsIndexOfFrom content [] (0 + 1) = some i2 := hsome2
  simp only [editFileHandler, e1, e2]

/-! ### Write-handler lemmas -/

theorem lookupIn_setFile_self (l : List (PathSegs × Str)) (p : PathSegs) (c : Str) :
    lookupIn (setFile l p c) p = some c := by
  induction l with
  | nil => simp [setFile, lookupIn]
  | cons e rest ih =>
    obtain ⟨q, d⟩ := e
    by_cases hq : q = p
    · simp [setFile, lookupIn, hq]
    · simp [setFile, lookupIn, hq, ih]

theorem lookupIn_setFile_other (l : List (PathSegs × Str)) (p q : PathSegs) (c : Str)
    (h : q ≠ p) : lookupIn (setFile l p c) q = lookupIn l q := by
  induction l with
  | nil =>
    have hpq : ¬ p = q := fun hEq => h hEq.symm
    simp [setFile, lookupIn, hpq]
  | cons e rest ih =>
    obtain ⟨r, d⟩ := e
    by_cases hr : r = p
    · subst hr
      have hrq : ¬ r = q := fun hEq => h hEq.symm
      simp [setFile, lookupIn, hrq]
    · simp [setFile, lookupIn, hr, ih]

theorem mem_foldl_insertDir_of_mem (l : List PathSegs) (ds : List PathSegs)
    (d : PathSegs) (h : d ∈ ds) : d ∈ l.foldl insertDir ds := by
  induction l generalizing ds with
  | nil => exact h
  | cons x rest ih =>
    apply ih
    unfold insertDir
    by_cases hx : x ∈ ds
    · rw [if_pos hx]
      exact h
    · rw [if_neg hx]
      exact List.mem_append_left _ h

theorem subset_foldl_insertDir (l : List PathSegs) (ds : List PathSegs) :
    ∀ x ∈ l, x ∈ l.foldl insertDir ds := by
  induction l generalizing ds with
  | nil => intro x hx; cases hx
  | cons y rest ih =>
    intro x hx
    rcases List.mem_cons.mp hx with hxy | hxr
    · subst hxy
      refine mem_foldl_insertDir_of_mem rest (insertDir ds x) x ?_
      unfold insertDir
      by_cases hy : x ∈ ds
      · rw [if_pos hy]
        exact hy
      · rw [if_neg hy]
        exact List.mem_append_right _ (List.mem_singleton.mpr rfl)
    · exact ih (insertDir ds y) x hxr

theorem foldl_insertDir_of_all_mem (l : List PathSegs) (ds : List PathSegs)
    (h : ∀ x ∈ l, x ∈ ds) : l.foldl insertDir ds = ds := by
  induction l generalizing ds with
  | nil => rfl
  | cons y rest ih =>
    have hy : y ∈ ds := h y (List.mem_cons_self _ _)
    show List.foldl insertDir (insertDir ds y) rest = ds
    rw [insertDir, if_pos hy]
    exact ih ds fun x hx => h x (List.mem_cons_of_mem _ hx)

theorem mkdirRecursive_idempotent (fs : FileSystem) (d : PathSegs) :
    mkdirRecursive (mkdirRecursive fs d) d = mkdirRecursive fs d := by
  unfold mkdirRecursive
  simp only [FileSystem.mk.injEq, and_true]
  exact foldl_insertDir_of_all_mem _ _ (subset_foldl_insertDir (ancestors d) fs.dirs)

/-- C8: a successful `write_file` creates every missing parent directory
(idempotently, leaving already-present directories in place), creates or
overwrites exactly the target file with exactly the given content, and
returns the success message reporting the content length (the number of
units written). -/
theorem writeFileHandler_spec (fs : FileSystem) (path : PathSegs) (content : Str) :
    lookupIn (writeFileHandler fs path content).1.files path = some content
    ∧ (∀ q, q ≠ path →
        lookupIn (writeFileHandler fs path content).1.files q = lookupIn fs.files q)
    ∧ (∀ d ∈ ancestors (dirnameSegs path), d ∈ (writeFileHandler fs path content).1.dirs)
    ∧ (∀ d ∈ fs.dirs, d ∈ (writeFileHandler fs path content).1.dirs)
    ∧ mkdirRecursive (mkdirRecursive fs (dirnameSegs path)) (dirnameSegs path)
        = mkdirRecursive fs (dirnameSegs path)
    ∧ (writeFileHandler fs path content).2
        = "Successfully wrote ".data ++ (Nat.repr content.length).data
            ++ " bytes to ".data ++ renderPath path := by
  refine ⟨?_, ?_, ?_, ?_, mkdirRecursive_idempotent fs (dirnameSegs path), ?_⟩
  · exact lookupIn_setFile_self _ path content
  · intro q hq
    exact lookupIn_setFile_other _ path q content hq
  · intro d hd
    exact subset_foldl_insertDir _ fs.dirs d hd
  · intro d hd
    exact mem_foldl_insertDir_of_mem _ fs.dirs d hd
  · simp [writeFileHandler, writeSuccessMsg, List.append_assoc]

/-- Witness for C8 on a concrete filesystem, path and content. -/
theorem writeFileHandler_spec_witness :
    lookupIn (writeFileHandler ⟨[], []⟩ ["tmp".data, "x.txt".data] "abc".data).1.files
        ["tmp".data, "x.txt".data] = some "abc".data
      ∧ lookupIn (writeFileHandler ⟨[], []⟩ ["tmp".data, "x.txt".data] "abc".data).1.files
          ["other".data] = lookupIn ([] : List (PathSegs × Str)) ["other".data] := by
  have h := writeFileHandler_spec ⟨[], []⟩ ["tmp".data, "x.txt".data] "abc".data
  exact ⟨h.1, h.2.1 ["other".data] (by decide)⟩

/-! ### Gemini agent-loop lemmas -/

theorem dispatchAfterGate_unknown (gth : Str → Option Handler) (fc : FunctionCall)
    (hg : gth fc.name = none) :
    dispatchAfterGate gth fc = (⟨fc.name, fc.id, .error (unknownToolMsg fc.name)⟩, []) := by
  unfold dispatchAfterGate
  rw [hg]

theorem dispatchAfterGate_known (gth : Str → Option Handler) (fc : FunctionCall)
    (h : Handler) (hg : gth fc.name = some h) :
    dispatchAfterGate gth fc
      = (⟨fc.name, fc.id, .output (truncateToolResult (h fc.args) MAX_RESULT_LENGTH)⟩,
         [.toolResult fc.name (h fc.args)]) := by
  unfold dispatchAfterGate
  rw [hg]

theorem processCall_none (gth : Str → Option Handler) (fc : FunctionCall) :
    processCall gth none fc
      = ((dispatchAfterGate gth fc).1,
         .toolUse fc.name fc.args :: (dispatchAfterGate gth fc).2) := rfl

theorem processCall_nondestructive (gth : Str → Option Handler) (f : Approver)
    (fc : FunctionCall) (hd : destructiveTools.contains fc.name = false) :
    processCall gth (some f) fc
      = ((dispatchAfterGate gth fc).1,
         .toolUse fc.name fc.args :: (dispatchAfterGate gth fc).2) := by
  unfold processCall
  rw [hd]
  simp

theorem processCall_denied (gth : Str → Option Handler) (f : Approver)
    (fc : FunctionCall) (hd : destructiveTools.contains fc.name = true)
    (hc : f fc.name fc.args = false) :
    processCall gth (some f) fc
      = (⟨fc.name, fc.id, .output deniedMsg⟩,
         [.toolUse fc.name fc.args, .confirmAsked fc.name fc.args]) := by
  unfold processCall
  rw [hd]
  simp [hc]

theorem processCall_approved (gth : Str → Option Handler) (f : Approver)
    (fc : FunctionCall) (hd : destructiveTools.contains fc.name = true)
    (hc : f fc.name fc.args = true) :
    processCall gth (some f) fc
      = ((dispatchAfterGate gth fc).1,
         .toolUse fc.name fc.args :: .confirmAsked fc.name fc.args
           :: (dispatchAfterGate gth fc).2) := by
  unfold processCall
  rw [hd]
  simp [hc]

theorem processCall_id (gth : Str → Option Handler) (oc : Option Approver)
    (fc : FunctionCall) : (processCall gth oc fc).1.id = fc.id := by
  have hdag : (dispatchAfterGate gth fc).1.id = fc.id := by
    cases hg : gth fc.name with
    | none => rw [dispatchAfterGate_unknown gth fc hg]
    | some h => rw [dispatchAfterGate_known gth fc h hg]
  cases oc with
  | none => rw [processCall_none]; exact hdag
  | some f =>
    by_cases hd : destructiveTools.contains fc.name = true
    · by_cases hc : f fc.name fc.args = true
      · rw [processCall_approved gth f fc hd hc]; exact hdag
      · rw [processCall_denied gth f fc hd (by simpa using hc)]
    · rw [processCall_nondestructive gth f fc (by simpa using hd)]; exact hdag

theorem processCalls_ids (gth : Str → Option Handler) (oc : Option Approver) :
    ∀ calls, ((processCalls gth oc calls).1.map FunctionResponse.id)
      = calls.map FunctionCall.id := by
  intro calls
  induction calls with
  | nil => rfl
  | cons fc rest ih =>
    simp [processCalls, List.map_cons, processCall_id, ih]

theorem processCall_toolResult_events (gth : Str → Option Handler)
    (oc : Option Approver) (fc : FunctionCall) :
    (processCall gth oc fc).2.filterMap toolResultEvent?
      = (dispatchedResult gth oc fc).toList := by
  have hdag : ∀ res, gth fc.name = some res →
      (dispatchAfterGate gth fc).2.filterMap toolResultEvent?
        = [(fc.name, res fc.args)] := by
    intro res hg
    rw [dispatchAfterGate_known gth fc res hg]
    simp [toolResultEvent?]
  have hdagu : gth fc.name = none →
      (dispatchAfterGate gth fc).2.filterMap toolResultEvent? = [] := by
    intro hg
    rw [dispatchAfterGate_unknown gth fc hg]
    simp
  cases oc with
  | none =>
    rw [processCall_none]
    cases hg : gth fc.name with
    | none =>
      simp [toolResultEvent?, hdagu hg, dispatchedResult, hg]
    | some res =>
      simp [toolResultEvent?, hdag res hg, dispatchedResult, hg, gatePasses]
  | some f =>
    by_cases hd : destructiveTools.contains fc.name = true
    · by_cases hc : f fc.name fc.args = true
      · rw [processCall_approved gth f fc hd hc]
        cases hg : gth fc.name with
        | none =>
          simp [toolResultEvent?, hdagu hg, dispatchedResult, hg]
        | some res =>
          simp [toolResultEvent?, hdag res hg, dispatchedResult, hg, gatePasses, hd, hc]
      · have hc' : f fc.name fc.args = false := by simpa using hc
        have hdm : fc.name ∈ destructiveTools := by simpa using hd
        rw [processCall_denied gth f fc hd hc']
        cases hg : gth fc.name with
        | none =>
          simp [toolResultEvent?, dispatchedResult, hg]
        | some res =>
          simp [toolResultEvent?, dispatchedResult, hg, gatePasses, hd, hc', hdm]
    · have hd' : destructiveTools.contains fc.name = false := by simpa using hd
      have hdm : fc.name ∉ destructiveTools := by simpa using hd
      rw [processCall_nondestructive gth f fc hd']
      cases hg : gth fc.name with
      | none =>
        simp [toolResultEvent?, hdagu hg, dispatchedResult, hg]
      | some res =>
        simp [toolResultEvent?, hdag res hg, dispatchedResult, hg, gatePasses, hd', hdm]

theorem processCalls_toolResult_events (gth : Str → Option Handler)
    (oc : Option Approver) (calls : List FunctionCall) :
    (processCalls gth oc calls).2.filterMap toolResultEvent?
      = calls.filterMap (dispatchedResult gth oc) := by
  induction calls with
  | nil => rfl
  | cons fc rest ih =>
    show ((processCall gth oc fc).2 ++ (processCalls gth oc rest).2).filterMap
        toolResultEvent? = _
    rw [List.filterMap_append, processCall_toolResult_events, ih]
    cases hdr : dispatchedResult gth oc fc with
    | none => simp [List.filterMap_cons, hdr]
    | some v => simp [List.filterMap_cons, hdr]

theorem callIds_modelContent (parts : List GPart) :
    callIds (modelContent parts) = (extractCalls parts).map FunctionCall.id := rfl

theorem callIds_toolTurn (rs : List FunctionResponse) :
    callIds (toolTurn rs) = [] := by
  induction rs with
  | nil => rfl
  | cons r t ih =>
    simp only [callIds, toolTurn, extractCalls] at ih ⊢
    simp only [List.map_cons, List.filterMap_cons]
    exact ih

theorem callIds_userContent (input : Str) : callIds (userContent input) = [] := rfl

theorem respIds_toolTurn (rs : List FunctionResponse) :
    respIds (toolTurn rs) = rs.map FunctionResponse.id := by
  induction rs with
  | nil => rfl
  | cons r t ih =>
    simp only [respIds, toolTurn] at ih ⊢
    simp only [List.map_cons, List.filterMap_cons]
    rw [ih]

theorem lastNoCalls_concat (l : List Content) (c : Content) :
    lastNoCalls (l ++ [c]) = (callIds c).isEmpty := by
  induction l with
  | nil => rfl
  | cons a t ih =>
    cases t with
    | nil => rfl
    | cons b t' => exact ih

theorem wellPaired_append (l₁ l₂ : List Content) (h : lastNoCalls l₁ = true) :
    wellPaired (l₁ ++ l₂) = (wellPaired l₁ && wellPaired l₂) := by
  induction l₁ with
  | nil => simp only [List.nil_append, wellPaired, Bool.true_and]
  | cons c t ih =>
    cases t with
    | nil =>
      have hc : (callIds c).isEmpty = true := h
      cases l₂ with
      | nil => simp [wellPaired, hc]
      | cons d t2 => simp [wellPaired, hc]
    | cons c2 t' =>
      have h' : lastNoCalls (c2 :: t') = true := h
      show wellPaired (c :: (c2 :: t' ++ l₂)) = _
      rw [show (c2 :: t' ++ l₂) = (c2 :: t') ++ l₂ from rfl] at *
      simp only [wellPaired]
      rw [show ((c2 :: t') ++ l₂) = c2 :: (t' ++ l₂) from rfl]
      simp only [wellPaired] at ih ⊢
      rw [ih h']
      cases hcc : (callIds c).isEmpty || respIds c2 == callIds c <;> simp [Bool.and_assoc]

theorem sendMessageLoop_wellPaired (gth : Str → Option Handler) (oc : Option Approver) :
    ∀ (script : List (List GPart)) (conv : List Content),
      wellPaired conv = true → lastNoCalls conv = true →
        wellPaired (sendMessageLoop gth oc script conv).1 = true := by
  intro script
  induction script with
  | nil =>
    intro conv h1 _
    exact h1
  | cons parts rest ih =>
    intro conv h1 h2
    simp only [sendMessageLoop]
    by_cases hc : (extractCalls parts).isEmpty = true
    · rw [if_pos hc]
      have hnil : extractCalls parts = [] := by
        simpa using hc
      have hm : callIds (modelContent parts) = [] := by
        rw [callIds_modelContent, hnil]
        rfl
      show wellPaired (conv ++ [modelContent parts]) = true
      rw [wellPaired_append conv _ h2, h1]
      simp [wellPaired, hm]
    · rw [if_neg hc]
      show wellPaired (sendMessageLoop gth oc rest
        ((conv ++ [modelContent parts])
          ++ [toolTurn (processCalls gth oc (extractCalls parts)).1])).1 = true
      apply ih
      · rw [List.append_assoc]
        rw [wellPaired_append conv _ h2, h1]
        have hresp : respIds (toolTurn (processCalls gth oc (extractCalls parts)).1)
            = callIds (modelContent parts) := by
          rw [respIds_toolTurn, processCalls_ids, callIds_modelContent]
        simp [wellPaired, hresp, callIds_toolTurn]
      · rw [lastNoCalls_concat]
        rw [callIds_toolTurn]
        rfl

theorem sendMessage_wellPaired (gth : Str → Option Handler) (oc : Option Approver)
    (script : List (List GPart)) (conv : List Content) (input : Str)
    (h1 : wellPaired conv = true) (h2 : lastNoCalls conv = true) :
    wellPaired (sendMessage gth oc script conv input).1 = true := by
  unfold sendMessage
  apply sendMessageLoop_wellPaired
  · rw [wellPaired_append conv _ h2, h1]
    simp [wellPaired, callIds_userContent]
  · rw [lastNoCalls_concat, callIds_userContent]
    rfl

theorem processCall_fst_gatePasses (gth : Str → Option Handler) (oc : Option Approver)
    (fc : FunctionCall) (hg : gatePasses oc fc = true) :
    (processCall gth oc fc).1 = (dispatchAfterGate gth fc).1 := by
  cases oc with
  | none => rw [processCall_none]
  | some f =>
    by_cases hd : destructiveTools.contains fc.name = true
    · have hdm : fc.name ∈ destructiveTools := by simpa using hd
      have hc : f fc.name fc.args = true := by
        simpa [gatePasses, hdm] using hg
      rw [processCall_approved gth f fc hd hc]
    · rw [processCall_nondestructive gth f fc (by simpa using hd)]

theorem sendMessageLoop_mem (gth : Str → Option Handler) (oc : Option Approver) :
    ∀ (script : List (List GPart)) (conv : List Content) (c : Content),
      c ∈ (sendMessageLoop gth oc script conv).1 →
        c ∈ conv ∨ (∃ parts, parts ∈ script ∧ c = modelContent parts)
          ∨ ∃ rs, c = toolTurn rs := by
  intro script
  induction script with
  | nil =>
    intro conv c hc
    exact Or.inl hc
  | cons parts rest ih =>
    intro conv c hc
    simp only [sendMessageLoop] at hc
    by_cases hcalls : (extractCalls parts).isEmpty = true
    · rw [if_pos hcalls] at hc
      rcases List.mem_append.mp hc with h | h
      · exact Or.inl h
      · exact Or.inr (Or.inl ⟨parts, List.mem_cons_self _ _, by simpa using h⟩)
    · rw [if_neg hcalls] at hc
      rcases ih _ c hc with h | h | h
      · rcases List.mem_append.mp h with h' | h'
        · rcases List.mem_append.mp h' with h'' | h''
          · exact Or.inl h''
          · exact Or.inr (Or.inl ⟨parts, List.mem_cons_self _ _, by simpa using h''⟩)
        · exact Or.inr (Or.inr ⟨_, by simpa using h'⟩)
      · obtain ⟨ps, hps, hcp⟩ := h
        exact Or.inr (Or.inl ⟨ps, List.mem_cons_of_mem _ hps, hcp⟩)
      · exact Or.inr (Or.inr h)

/-! ### OpenAI agent-loop lemmas -/

theorem oaResponseFor_call_id (parse : Str → Option Args)
    (gth : Str → Option Handler) (c : OACall) :
    (oaResponseFor parse gth c).call_id = c.call_id := by
  unfold oaResponseFor
  cases gth c.name with
  | none => rfl
  | some h => cases parse (c.arguments.getD jsonEmptyObject) <;> rfl

theorem oaResponses_ids (parse : Str → Option Args) (gth : Str → Option Handler) :
    ∀ calls : List OACall,
      (calls.map (oaResponseFor parse gth)).map OAOutput.call_id
        = calls.map OACall.call_id := by
  intro calls
  induction calls with
  | nil => rfl
  | cons c rest ih => simp [oaResponseFor_call_id, ih]

theorem oaProcessCalls_ok (parse : Str → Option Args) (gth : Str → Option Handler) :
    ∀ calls : List OACall,
      (∀ c ∈ calls, (gth c.name).isSome →
        (parse (c.arguments.getD jsonEmptyObject)).isSome) →
      (oaProcessCalls parse gth calls).2
        = .ok (calls.map (oaResponseFor parse gth)) := by
  intro calls
  induction calls with
  | nil => intro _; rfl
  | cons c rest ih =>
    intro hall
    have hrest := fun d hd hs => hall d (List.mem_cons_of_mem _ hd) hs
    simp only [oaProcessCalls]
    cases hg : gth c.name with
    | none =>
      simp [Except.map, ih hrest, oaResponseFor, hg]
    | some h =>
      have hp : (parse (c.arguments.getD jsonEmptyObject)).isSome :=
        hall c (List.mem_cons_self _ _) (by rw [hg]; rfl)
      obtain ⟨args, hargs⟩ := Option.isSome_iff_exists.mp hp
      simp [hargs, Except.map, ih hrest, oaResponseFor, hg]

/-- C1 (amended): per dispatch round, the appended function responses
correlate one-to-one and in order with the turn's function calls, and
across a whole `sendMessage` run (any backend script, including an
aborted one) the conversation stays well paired: every turn with
function calls is immediately followed by a single turn whose response
ids are exactly the call ids, before any further inference.  In the
Gemini loop this holds unconditionally (arguments arrive structured); in
the OpenAI loop it holds for rounds whose calls all have parsable
arguments (the original unconditional claim fails there: an unparsable
argument string makes `JSON.parse` throw and the round appends nothing —
see the counterexample). -/
theorem toolResults_pair_calls_per_turn :
    (∀ (gth : Str → Option Handler) (oc : Option Approver) (calls : List FunctionCall),
       (processCalls gth oc calls).1.map FunctionResponse.id
         = calls.map FunctionCall.id)
    ∧ (∀ (gth : Str → Option Handler) (oc : Option Approver)
         (script : List (List GPart)) (conv : List Content) (input : Str),
        wellPaired conv = true → lastNoCalls conv = true →
          wellPaired (sendMessage gth oc script conv input).1 = true)
    ∧ (∀ (parse : Str → Option Args) (gth : Str → Option Handler)
         (calls : List OACall),
        (∀ c ∈ calls, (gth c.name).isSome →
          (parse (c.arguments.getD jsonEmptyObject)).isSome) →
          (oaProcessCalls parse gth calls).2
              = .ok (calls.map (oaResponseFor parse gth))
            ∧ (calls.map (oaResponseFor parse gth)).map OAOutput.call_id
                = calls.map OACall.call_id) :=
  ⟨fun gth oc calls => processCalls_ids gth oc calls,
   fun gth oc script conv input h1 h2 =>
     sendMessage_wellPaired gth oc script conv input h1 h2,
   fun parse gth calls hall =>
     ⟨oaProcessCalls_ok parse gth calls hall, oaResponses_ids parse gth calls⟩⟩

/-- Witness for the amended C1 theorem at concrete inputs. -/
theorem toolResults_pair_calls_per_turn_witness :
    wellPaired (sendMessage (fun _ => none) none [] [] "hi".data).1 = true
    ∧ (oaProcessCalls parseStrict gthBig [callNullArgs]).2
        = .ok ([callNullArgs].map (oaResponseFor parseStrict gthBig)) :=
  ⟨toolResults_pair_calls_per_turn.2.1 (fun _ => none) none [] [] "hi".data rfl rfl,
   (toolResults_pair_calls_per_turn.2.2 parseStrict gthBig [callNullArgs]
     (by decide)).1⟩

/-- C1 counterexample: in the OpenAI loop, a call whose argument string
is not valid JSON makes `JSON.parse` throw before the collected outputs
are appended: the round ends in the exception and zero tool results are
produced for the call (`call_3`) — not exactly one. -/
theorem oa_unparsable_args_drop_results :
    (oaProcessCalls parseStrict gthBig [callBadArgs2]).2 = .error jsonParseErrorMsg := by
  rfl

/-- C4: the confirmation gate.  With no approver registered, dispatch
proceeds exactly as the ungated dispatch and the approver is never
consulted (no confirm event).  With an approver that answers `false` on
a destructive tool, the stored result is the standard denial string and
the handler is never invoked (no tool-result event).  For a
non-destructive tool name, the approver is never consulted regardless of
its answer and dispatch proceeds as ungated. -/
theorem confirmationGate_spec :
    (∀ (gth : Str → Option Handler) (fc : FunctionCall),
       (processCall gth none fc).1 = (dispatchAfterGate gth fc).1
       ∧ (processCall gth none fc).2.filter isConfirmEvent = [])
    ∧ (∀ (gth : Str → Option Handler) (f : Approver) (fc : FunctionCall),
        destructiveTools.contains fc.name = true → f fc.name fc.args = false →
          (processCall gth (some f) fc).1
              = ⟨fc.name, fc.id, .output deniedMsg⟩
            ∧ (processCall gth (some f) fc).2.filter isToolResultEvent = [])
    ∧ (∀ (gth : Str → Option Handler) (f : Approver) (fc : FunctionCall),
        destructiveTools.contains fc.name = false →
          (processCall gth (some f) fc).1 = (dispatchAfterGate gth fc).1
          ∧ (processCall gth (some f) fc).2.filter isConfirmEvent = []) := by
  have hdagFilterC : ∀ (gth : Str → Option Handler) (fc : FunctionCall),
      (dispatchAfterGate gth fc).2.filter isConfirmEvent = [] := by
    intro gth fc
    cases hg : gth fc.name with
    | none => rw [dispatchAfterGate_unknown gth fc hg]; rfl
    | some h => rw [dispatchAfterGate_known gth fc h hg]; rfl
  refine ⟨?_, ?_, ?_⟩
  · intro gth fc
    rw [processCall_none]
    exact ⟨rfl, by simp [List.filter_cons, isConfirmEvent, hdagFilterC]⟩
  · intro gth f fc hd hc
    rw [processCall_denied gth f fc hd hc]
    exact ⟨rfl, by simp [List.filter_cons, isToolResultEvent]⟩
  · intro gth f fc hd
    rw [processCall_nondestructive gth f fc hd]
    exact ⟨rfl, by simp [List.filter_cons, isConfirmEvent, hdagFilterC]⟩

/-- Witness for C4: a registered approver answering `false` on
`write_file` yields the denial result and no handler invocation. -/
theorem confirmationGate_spec_witness :
    (processCall (fun _ => none) (some fun _ _ => false)
        ⟨"write_file".data, "1".data, []⟩).1
      = ⟨"write_file".data, "1".data, .output deniedMsg⟩ :=
  (confirmationGate_spec.2.1 (fun _ => none) (fun _ _ => false)
    ⟨"write_file".data, "1".data, []⟩ (by decide) rfl).1

/-- C6 (amended): a call naming an unknown tool is recovered locally in
the dispatch loops — the appended result carries the explicit
`Error: Unknown tool: '<name>'` string and the round continues without
raising.  A call with unparsable arguments in the OpenAI loop, however,
is not recovered: `JSON.parse` throws and the exception escapes
`sendMessage` (see the counterexample). -/
theorem unknown_tool_recovered_locally :
    (∀ (gth : Str → Option Handler) (oc : Option Approver) (fc : FunctionCall),
       gth fc.name = none → gatePasses oc fc = true →
         (processCall gth oc fc).1
           = ⟨fc.name, fc.id, .error (unknownToolMsg fc.name)⟩)
    ∧ (∀ (parse : Str → Option Args) (gth : Str → Option Handler)
         (calls : List OACall),
        (∀ c ∈ calls, (gth c.name).isSome →
          (parse (c.arguments.getD jsonEmptyObject)).isSome) →
          (oaProcessCalls parse gth calls).2
              = .ok (calls.map (oaResponseFor parse gth))
            ∧ ∀ c : OACall, gth c.name = none →
                oaResponseFor parse gth c = ⟨c.call_id, unknownToolMsg c.name⟩) := by
  refine ⟨?_, ?_⟩
  · intro gth oc fc hu hg
    rw [processCall_fst_gatePasses gth oc fc hg, dispatchAfterGate_unknown gth fc hu]
  · intro parse gth calls hall
    refine ⟨oaProcessCalls_ok parse gth calls hall, ?_⟩
    intro c hu
    unfold oaResponseFor
    rw [hu]

/-- Witness for the amended C6 theorem: an unknown tool name yields the
explicit error result. -/
theorem unknown_tool_recovered_locally_witness :
    (processCall (fun _ => none) none ⟨"nonexistent_tool".data, "1".data, []⟩).1
      = ⟨"nonexistent_tool".data, "1".data,
         .error (unknownToolMsg "nonexistent_tool".data)⟩ :=
  unknown_tool_recovered_locally.1 (fun _ => none) none
    ⟨"nonexistent_tool".data, "1".data, []⟩ rfl rfl

/-- C6 counterexample: a call with an unparsable argument string in the
OpenAI loop aborts the round with the `JSON.parse` exception instead of
appending an error-string tool result. -/
theorem oa_unparsable_args_raise :
    (oaProcessCalls parseStrict gthBig [callBadArgs]).2 = .error jsonParseErrorMsg := by
  rfl

/-- C3 (amended): in the Gemini loop every result that is dispatched to
a handler is stored as `truncateToolResult` of the handler's raw output
(denied and unknown calls store fixed strings), and every turn the loop
appends is either a pre-existing turn, a model turn holding the
backend's parts verbatim (assistant text is never truncated), or a
tool-result turn.  The OpenAI loop stores the raw handler output with no
truncation, so the original "in every agent loop" claim fails — see the
counterexample. -/
theorem truncation_in_gemini_loop :
    (∀ (gth : Str → Option Handler) (oc : Option Approver) (fc : FunctionCall)
       (h : Handler), gth fc.name = some h → gatePasses oc fc = true →
         (processCall gth oc fc).1
           = ⟨fc.name, fc.id,
              .output (truncateToolResult (h fc.args) MAX_RESULT_LENGTH)⟩)
    ∧ (∀ (gth : Str → Option Handler) (oc : Option Approver)
         (script : List (List GPart)) (conv : List Content) (c : Content),
        c ∈ (sendMessageLoop gth oc script conv).1 →
          c ∈ conv ∨ (∃ parts, parts ∈ script ∧ c = modelContent parts)
            ∨ ∃ rs, c = toolTurn rs)
    ∧ (∀ (parse : Str → Option Args) (gth : Str → Option Handler) (c : OACall)
         (h : Handler) (args : Args),
        gth c.name = some h →
          parse (c.arguments.getD jsonEmptyObject) = some args →
            oaResponseFor parse gth c = ⟨c.call_id, h args⟩) := by
  refine ⟨?_, ?_, ?_⟩
  · intro gth oc fc h hh hg
    rw [processCall_fst_gatePasses gth oc fc hg, dispatchAfterGate_known gth fc h hh]
  · intro gth oc script conv c hc
    exact sendMessageLoop_mem gth oc script conv c hc
  · intro parse gth c h args hh hp
    unfold oaResponseFor
    rw [hh, hp]

/-- Witness for the amended C3 theorem: a dispatched Gemini result is
stored truncated. -/
theorem truncation_in_gemini_loop_witness :
    (processCall gthBig none ⟨"read_file".data, "9".data, []⟩).1
      = ⟨"read_file".data, "9".data,
         .output (truncateToolResult bigA MAX_RESULT_LENGTH)⟩ :=
  truncation_in_gemini_loop.1 gthBig none ⟨"read_file".data, "9".data, []⟩
    (fun _ => bigA) rfl rfl

/-- C3 counterexample: the OpenAI loop appends the handler's
30001-character output unchanged, and that string is not the truncated
form of itself (truncation would shorten the middle to the 30000 budget
plus the marker). -/
theorem oa_result_not_truncated :
    (oaProcessCalls parseStrict gthBig [callNullArgs]).2
        = .ok [⟨"call_1".data, bigA⟩]
      ∧ bigA ≠ truncateToolResult bigA MAX_RESULT_LENGTH := by
  constructor
  · rfl
  · intro hEq
    have hlen := congrArg List.length hEq
    rw [bigA_length, truncate_bigA_length] at hlen
    norm_num at hlen

theorem oaProcessCalls_events (parse : Str → Option Args)
    (gth : Str → Option Handler) :
    ∀ calls : List OACall,
      (∀ c ∈ calls, (gth c.name).isSome →
        (parse (c.arguments.getD jsonEmptyObject)).isSome) →
      (oaProcessCalls parse gth calls).1.filterMap oaToolResultEvent?
        = calls.filterMap (oaDispatchedResult parse gth) := by
  intro calls
  induction calls with
  | nil => intro _; rfl
  | cons c rest ih =>
    intro hall
    have hrest := fun d hd hs => hall d (List.mem_cons_of_mem _ hd) hs
    simp only [oaProcessCalls]
    cases hg : gth c.name with
    | none =>
      simp [List.filterMap_cons, oaToolResultEvent?, oaDispatchedResult, hg, ih hrest]
    | some h =>
      have hp : (parse (c.arguments.getD jsonEmptyObject)).isSome :=
        hall c (List.mem_cons_self _ _) (by rw [hg]; rfl)
      obtain ⟨args, hargs⟩ := Option.isSome_iff_exists.mp hp
      simp [hargs, List.filterMap_cons, oaToolResultEvent?, oaDispatchedResult, hg,
        ih hrest]

/-- C9 (amended): the tool-result observer fires exactly for the calls
actually dispatched to a handler, in order, with the handler's raw
result.  In the Gemini loop this holds unconditionally, and a call
denied by the gate or naming an unknown tool still gets a response
appended (the response ids are exactly the call ids) with no
notification.  In the OpenAI loop the same holds provided every call
that reaches a handler has parsable arguments; if some call's arguments
fail to parse, the round aborts with the `JSON.parse` exception and no
results at all are appended for that round — including the unknown-tool
calls' error results (see the counterexample). -/
theorem toolResult_events_exactly_dispatched :
    (∀ (gth : Str → Option Handler) (oc : Option Approver)
       (calls : List FunctionCall),
      (processCalls gth oc calls).2.filterMap toolResultEvent?
          = calls.filterMap (dispatchedResult gth oc)
        ∧ (processCalls gth oc calls).1.map FunctionResponse.id
            = calls.map FunctionCall.id)
    ∧ (∀ (parse : Str → Option Args) (gth : Str → Option Handler)
         (calls : List OACall),
        (∀ c ∈ calls, (gth c.name).isSome →
          (parse (c.arguments.getD jsonEmptyObject)).isSome) →
          (oaProcessCalls parse gth calls).1.filterMap oaToolResultEvent?
              = calls.filterMap (oaDispatchedResult parse gth)
            ∧ (oaProcessCalls parse gth calls).2
                = .ok (calls.map (oaResponseFor parse gth))
            ∧ (calls.map (oaResponseFor parse gth)).map OAOutput.call_id
                = calls.map OACall.call_id) :=
  ⟨fun gth oc calls =>
    ⟨processCalls_toolResult_events gth oc calls, processCalls_ids gth oc calls⟩,
   fun parse gth calls hall =>
    ⟨oaProcessCalls_events parse gth calls hall,
     oaProcessCalls_ok parse gth calls hall,
     oaResponses_ids parse gth calls⟩⟩

/-- Witness for the amended C9 theorem: a round with an unknown-tool
call and a dispatched call, all arguments parsable — the notification
fires only for the dispatched call and both calls get a response. -/
theorem toolResult_events_exactly_dispatched_witness :
    (oaProcessCalls parseStrict gthBig [callUnknownTool, callNullArgs]).1.filterMap
        oaToolResultEvent?
      = [callUnknownTool, callNullArgs].filterMap
          (oaDispatchedResult parseStrict gthBig)
    ∧ (oaProcessCalls parseStrict gthBig [callUnknownTool, callNullArgs]).2
        = .ok ([callUnknownTool, callNullArgs].map
            (oaResponseFor parseStrict gthBig)) :=
  ⟨(toolResult_events_exactly_dispatched.2 parseStrict gthBig
     [callUnknownTool, callNullArgs] (by decide)).1,
   (toolResult_events_exactly_dispatched.2 parseStrict gthBig
     [callUnknownTool, callNullArgs] (by decide)).2.1⟩

/-- C9 counterexample: in the OpenAI loop, a round with an unknown-tool
call (`call_4`) followed by a registered-tool call whose arguments do
not parse (`call_5`) aborts with the `JSON.parse` exception before
`conversation.push(...toolOutputs)` runs, so the unknown-tool call's
error result is never appended to the Conversation — refuting the
original claim that a result is still appended for every such call. -/
theorem oa_unknown_tool_result_dropped :
    (oaProcessCalls parseStrict gthBig [callUnknownTool, callBadArgsAfter]).2
      = .error jsonParseErrorMsg := by
  rfl
